import Mathlib

/-!
Verification of the gotestdox test-name prettifier and event filter.

This file gives a shallow embedding of the Go sources:

* `prettifier.go`: the `Prettify` state-function scanner (states
  `betweenWords` and `inWord`), together with its helpers `next`, `backup`,
  `skip`, `prev`, `inInitialism`, `emit` and `multiWordFunction`.
* `gotestdox.go`: the `Filter` loop's boolean result and `Event.Relevant`.

Modelling conventions:

* Go runes are modelled as `Char`; the character classifiers
  (`unicode.IsUpper`, `unicode.IsLower`, `unicode.IsDigit`) and the case
  mappers (`strings.ToLower`, `strings.Title`, `unicode.ToTitle`) are
  modelled on their ASCII fragment, which is the fragment exercised by Go
  test identifiers.  `len` on a word is modelled as the character count
  (equal to Go's byte count on ASCII data).
* The scanner loop is driven by a fuel parameter; `run_total` below proves
  that the fuel chosen by `Prettify` always suffices, so the embedding is
  total exactly as the Go loop terminates.
* `bufio` line scanning and `encoding/json` decoding are external library
  plumbing; `FilterAllOK` therefore receives the per-line parse results
  (`ParseJSON` succeeded with an event, or failed) as a `List (Option Event)`
  and reproduces the `Filter` loop's boolean state.  The writing of output
  lines does not influence the returned boolean and is omitted.
-/

namespace Gotestdox

/-- The `eof` sentinel rune of `prettifier.go`: `const eof rune = 0`. -/
def eofChar : Char := Char.ofNat 0

/-- ASCII fragment of Go `unicode.IsUpper`. -/
def isUpperGo (c : Char) : Bool := 65 ≤ c.toNat && c.toNat ≤ 90

/-- ASCII fragment of Go `unicode.IsLower`. -/
def isLowerGo (c : Char) : Bool := 97 ≤ c.toNat && c.toNat ≤ 122

/-- ASCII fragment of Go `unicode.IsDigit`. -/
def isDigitGo (c : Char) : Bool := 48 ≤ c.toNat && c.toNat ≤ 57

/-- ASCII fragment of Go `unicode.ToUpper` / `unicode.ToTitle`. -/
def toUpperGo (c : Char) : Char :=
  if isLowerGo c then Char.ofNat (c.toNat - 32) else c

/-- ASCII fragment of Go `unicode.ToLower`. -/
def toLowerGo (c : Char) : Char :=
  if isUpperGo c then Char.ofNat (c.toNat + 32) else c

/-- ASCII fragment of Go `strings.ToLower` (rune-wise lowering). -/
def toLowerStr (s : String) : String := ⟨s.data.map toLowerGo⟩

/-- ASCII fragment of Go `strings.isSeparator`: ASCII alphanumerics and the
underscore are not separators, every other ASCII rune is. -/
def isSeparatorGo (c : Char) : Bool :=
  !(isDigitGo c || isLowerGo c || isUpperGo c || c.toNat == 95)

/-- Rune-by-rune worker for `strings.Title`: a rune following a separator is
title-cased, the tracked previous rune starting as a space. -/
def titleChars : Char → List Char → List Char
  | _, [] => []
  | prev, c :: cs => (if isSeparatorGo prev then toUpperGo c else c) :: titleChars c cs

/-- ASCII fragment of Go `strings.Title`. -/
def titleGo (s : String) : String := ⟨titleChars ' ' s.data⟩

/-- Go `strings.Join`. -/
def joinGo (sep : String) : List String → String
  | [] => ""
  | [w] => w
  | w :: ws => w ++ sep ++ joinGo sep ws

/-- The scanner state of `prettifier.go` (`type prettifier struct`), minus the
`debug` writer, which never affects the result. -/
structure Prettifier where
  input : List Char
  start : Nat
  pos : Nat
  words : List String
  inSubTest : Bool
  seenUnderscore : Bool
  deriving Repr

namespace Prettifier

/-- `func (p *prettifier) next() rune`: past the end it returns the `eof`
sentinel without moving, otherwise the rune under `pos`, advancing. -/
def next (p : Prettifier) : Char × Prettifier :=
  if p.pos < p.input.length then
    (p.input.getD p.pos eofChar, { p with pos := p.pos + 1 })
  else (eofChar, p)

/-- `func (p *prettifier) backup()`. -/
def backup (p : Prettifier) : Prettifier := { p with pos := p.pos - 1 }

/-- `func (p *prettifier) skip()`. -/
def skip (p : Prettifier) : Prettifier := { p with start := p.pos }

/-- `func (p *prettifier) prev() rune`, i.e. `p.input[p.pos-1]` (read through
`getD`; the Go code only ever calls it at positions where the index is in
range). -/
def prevRune (p : Prettifier) : Char := p.input.getD (p.pos - 1) eofChar

/-- The pending span `p.input[p.start:p.pos]`. -/
def spanChars (p : Prettifier) : List Char :=
  (p.input.drop p.start).take (p.pos - p.start)

/-- `func (p *prettifier) inInitialism() bool`: no rune of the pending span is
lowercase. -/
def inInitialism (p : Prettifier) : Bool :=
  (spanChars p).all fun c => !(isLowerGo c)

/-- The `word` value built inside `func (p *prettifier) emit()`: the pending
span rendered by the `switch` (title-case the first word ever emitted;
lowercase a one-rune word; lowercase a non-initialism word; otherwise keep it
verbatim). -/
def renderWord (p : Prettifier) : String :=
  let word := String.mk (spanChars p)
  if p.words = [] then titleGo word
  else if word.length = 1 then toLowerStr word
  else if !(inInitialism p) then toLowerStr word
  else word

/-- `func (p *prettifier) emit()`: append the rendered pending span to the
word list, then skip. -/
def emit (p : Prettifier) : Prettifier :=
  { p with words := p.words ++ [renderWord p], start := p.pos }

/-- `func (p *prettifier) multiWordFunction()`: replace the emitted words by
their title-cased concatenation and record that the underscore hint fired. -/
def multiWordFunction (p : Prettifier) : Prettifier :=
  { p with
    words := [p.words.foldl (fun fname w => fname ++ titleGo w) ""],
    seenUnderscore := true }

end Prettifier

/-- The two state functions of the scanner (`betweenWords` and `inWord`). -/
inductive Tag where
  | between
  | inword
  deriving Repr, DecidableEq

open Prettifier in
/-- The scanner loop `for state := betweenWords; state != nil; state = state(p)`,
with both state functions inlined and one unit of fuel per loop iteration.
Each branch transcribes the corresponding `case` of `betweenWords` / `inWord`
in `prettifier.go`. -/
def run : Nat → Tag → Prettifier → Option (List String)
  | 0, _, _ => none
  | n + 1, Tag.between, p =>
    let r := (next p).1
    let p₁ := (next p).2
    if r = eofChar then some p₁.words
    else if r = '_' ∨ r = '/' then run n Tag.between (skip p₁)
    else run n Tag.inword p₁
  | n + 1, Tag.inword, p =>
    let r := (next p).1
    let p₁ := (next p).2
    if r = eofChar then some (emit p₁).words
    else if r = '_' then
      let p₂ := emit (backup p₁)
      if !p₂.seenUnderscore && !p₂.inSubTest then
        run n Tag.between (multiWordFunction p₂)
      else run n Tag.between p₂
    else if r = '/' then
      let p₂ := emit (backup p₁)
      run n Tag.between { p₂ with inSubTest := true }
    else if isUpperGo r then
      let p₂ := backup p₁
      if prevRune p₂ ≠ '-' ∧ !(inInitialism p₂) then
        run n Tag.between (emit p₂)
      else run n Tag.inword (next p₂).2
    else if isDigitGo r then
      let p₂ := backup p₁
      let p₃ :=
        if !(isDigitGo (prevRune p₂)) ∧ prevRune p₂ ≠ '-' ∧ prevRune p₂ ≠ '=' ∧
            !(inInitialism p₂) then
          emit p₂
        else p₂
      run n Tag.inword (next p₃).2
    else
      let p₂ := backup p₁
      if inInitialism p₂ ∧ p₂.pos - p₂.start > 1 then
        run n Tag.inword (emit (backup p₂))
      else run n Tag.inword (next p₂).2

/-- Fuel that `Prettify` hands to `run`; `run_total` below shows it is enough
for the scan to finish. -/
def fuelFor (len : Nat) : Nat := 3 * len + 1

/-- Go `strings.TrimPrefix(input, "Test")`, on the rune level. -/
def trimTestMarker (input : String) : String :=
  if input.data.take 4 = "Test".data then ⟨input.data.drop 4⟩ else input

/-- The word list produced by the scan inside `Prettify`: trim the `Test`
prefix (`strings.TrimPrefix`), then run the scanner from `betweenWords` on the
fresh state. -/
def prettifyWords (input : String) : Option (List String) :=
  let t := trimTestMarker input
  run (fuelFor t.data.length) Tag.between ⟨t.data, 0, 0, [], false, false⟩

/-- `func Prettify(input string) string`: scan, then `strings.Join(p.words, " ")`.
The `none` fallback is never taken (`run_total`). -/
def Prettify (input : String) : String :=
  match prettifyWords input with
  | some ws => joinGo " " ws
  | none => ""

/-- The word list of a `Prettify` scan (empty if the fuel were to run out,
which `run_total` rules out). -/
def wordsOf (input : String) : List String := (prettifyWords input).getD []

/-- A rune that is neither the underscore nor the slash separator. -/
def cleanChar (c : Char) : Bool := !(c == '_' || c == '/')

/-- A word none of whose runes is a separator. -/
def cleanWord (w : String) : Bool := w.data.all cleanChar

/-- The first rune of the word (an `A` placeholder if there is none) is not a
lowercase letter. -/
def notLowerHead (w : String) : Bool := !(isLowerGo (w.data.getD 0 'A'))

/-- A word as rendered by `emit` for a non-lead position: either it is fixed
by rune-wise lowering, or it contains no lowercase rune at all (an initialism
kept verbatim). -/
def casedWord (w : String) : Bool :=
  (w == toLowerStr w) || w.data.all fun c => !(isLowerGo c)

/-- Invariant carried by the scanner's word list: every word is free of
separators, the lead word does not begin with a lowercase letter, and every
non-lead word is rendered per the `emit` casing rules. -/
def GoodWords (ws : List String) : Prop :=
  (∀ w ∈ ws, cleanWord w = true) ∧
  (∀ w, ws.head? = some w → notLowerHead w = true) ∧
  (∀ w ∈ ws.tail, casedWord w = true)

/-- Invariant of the `betweenWords` state: the pending span is empty and the
cursor is in bounds. -/
def InvB (p : Prettifier) : Prop := p.start = p.pos ∧ p.pos ≤ p.input.length

/-- Invariant of the `inWord` state: the cursor is in bounds, the pending span
contains no separator rune, and if the span is empty then the rune under the
cursor is not a separator either (it is the re-scanned tail of an
initialism). -/
def InvW (p : Prettifier) : Prop :=
  p.start ≤ p.pos ∧ p.pos ≤ p.input.length ∧
  (∀ i, p.start ≤ i → i < p.pos → cleanChar (p.input.getD i eofChar) = true) ∧
  (p.start = p.pos → cleanChar (p.input.getD p.pos eofChar) = true)

/-- The state invariant of the scanner. -/
def Inv : Tag → Prettifier → Prop
  | Tag.between => InvB
  | Tag.inword => InvW

/-- Termination measure of the scanner loop: both indices only ever move
towards the end of the input, the start index weighted double because the
camel-case backtrack steps the scan position back once while advancing the
start index. -/
def measureP (p : Prettifier) : Nat :=
  2 * (p.input.length - p.start) + (p.input.length - p.pos)

/-- The `go test -json` event record of `gotestdox.go` (`type Event struct`). -/
structure Event where
  Action : String
  Package : String
  Test : String
  Elapsed : Float

/-- `func (e Event) Relevant() bool`: only pass/fail events about names
carrying the `Test` marker are shown. -/
def Relevant (e : Event) : Bool :=
  if ¬ (e.Test.data.take 4 = "Test".data) then false
  else if e.Action = "pass" ∨ e.Action = "fail" then true
  else false

/-- The boolean state of `func Filter(input io.Reader, output io.Writer) bool`.
Each element of `lines` is the `ParseJSON` outcome of one scanned input line
(`none` when `json.Unmarshal` failed, in which case the loop continues).  The
loop sets `allOK` to `false` on any parsed event whose `Action` is `fail`,
before and independently of the `Relevant` display filter; the written output
does not feed back into the boolean and is omitted here. -/
def FilterAllOK (lines : List (Option Event)) : Bool :=
  lines.foldl
    (fun allOK l =>
      match l with
      | none => allOK
      | some event => if event.Action = "fail" then false else allOK)
    true

open Prettifier

/-! Character-level lemmas about the ASCII fragment. -/

theorem char_toNat_ofNat {n : Nat} (h : n.isValidChar) : (Char.ofNat n).toNat = n := by
  simp only [Char.ofNat, dif_pos h, Char.ofNatAux, Char.toNat, UInt32.toNat]
  simp [BitVec.toNat_ofNatLt]

theorem char_eq_iff_toNat {a b : Char} : a = b ↔ a.toNat = b.toNat := by
  constructor
  · intro h; rw [h]
  · intro h; exact Char.eq_of_val_eq (UInt32.ext h)

theorem isLowerGo_iff {c : Char} : isLowerGo c = true ↔ 97 ≤ c.toNat ∧ c.toNat ≤ 122 := by
  simp [isLowerGo]

theorem isUpperGo_iff {c : Char} : isUpperGo c = true ↔ 65 ≤ c.toNat ∧ c.toNat ≤ 90 := by
  simp [isUpperGo]

theorem isDigitGo_iff {c : Char} : isDigitGo c = true ↔ 48 ≤ c.toNat ∧ c.toNat ≤ 57 := by
  simp [isDigitGo]

theorem cleanChar_iff {c : Char} : cleanChar c = true ↔ c.toNat ≠ 95 ∧ c.toNat ≠ 47 := by
  have h1 : (c = '_') ↔ c.toNat = 95 := by rw [char_eq_iff_toNat]; exact Iff.rfl
  have h2 : (c = '/') ↔ c.toNat = 47 := by rw [char_eq_iff_toNat]; exact Iff.rfl
  simp [cleanChar, h1, h2]

theorem toNat_toUpperGo (c : Char) :
    (toUpperGo c).toNat = if isLowerGo c then c.toNat - 32 else c.toNat := by
  by_cases h : isLowerGo c = true
  · have hn := isLowerGo_iff.mp h
    have hv : (c.toNat - 32).isValidChar := Or.inl (by omega)
    simp [toUpperGo, h, char_toNat_ofNat hv]
  · simp [toUpperGo, h]

theorem toNat_toLowerGo (c : Char) :
    (toLowerGo c).toNat = if isUpperGo c then c.toNat + 32 else c.toNat := by
  by_cases h : isUpperGo c = true
  · have hn := isUpperGo_iff.mp h
    have hv : (c.toNat + 32).isValidChar := Or.inl (by omega)
    simp [toLowerGo, h, char_toNat_ofNat hv]
  · simp [toLowerGo, h]

theorem isLowerGo_toUpperGo (c : Char) : isLowerGo (toUpperGo c) = false := by
  rw [Bool.eq_false_iff]
  intro h
  have hn := isLowerGo_iff.mp h
  rw [toNat_toUpperGo] at hn
  by_cases hc : isLowerGo c = true
  · have := isLowerGo_iff.mp hc; simp [hc] at hn; omega
  · have : ¬ (97 ≤ c.toNat ∧ c.toNat ≤ 122) := fun hx => hc (isLowerGo_iff.mpr hx)
    simp [hc] at hn; omega

theorem isUpperGo_toLowerGo (c : Char) : isUpperGo (toLowerGo c) = false := by
  rw [Bool.eq_false_iff]
  intro h
  have hn := isUpperGo_iff.mp h
  rw [toNat_toLowerGo] at hn
  by_cases hc : isUpperGo c = true
  · have := isUpperGo_iff.mp hc; simp [hc] at hn; omega
  · have : ¬ (65 ≤ c.toNat ∧ c.toNat ≤ 90) := fun hx => hc (isUpperGo_iff.mpr hx)
    simp [hc] at hn; omega

theorem cleanChar_toUpperGo {c : Char} (h : cleanChar c = true) :
    cleanChar (toUpperGo c) = true := by
  have hn := cleanChar_iff.mp h
  refine cleanChar_iff.mpr ?_
  rw [toNat_toUpperGo]
  by_cases hc : isLowerGo c = true
  · have := isLowerGo_iff.mp hc; simp [hc]; omega
  · simp [hc]; omega

theorem cleanChar_toLowerGo {c : Char} (h : cleanChar c = true) :
    cleanChar (toLowerGo c) = true := by
  have hn := cleanChar_iff.mp h
  refine cleanChar_iff.mpr ?_
  rw [toNat_toLowerGo]
  by_cases hc : isUpperGo c = true
  · have := isUpperGo_iff.mp hc; simp [hc]; omega
  · simp [hc]; omega

theorem toLowerGo_toLowerGo (c : Char) : toLowerGo (toLowerGo c) = toLowerGo c := by
  have h := isUpperGo_toLowerGo c
  unfold toLowerGo
  rw [show isUpperGo (if isUpperGo c = true then Char.ofNat (c.toNat + 32) else c) = false
      from by rw [← toLowerGo]; exact h]
  simp

/-! Word-level lemmas. -/

theorem cleanWord_toLowerStr {w : String} (h : cleanWord w = true) :
    cleanWord (toLowerStr w) = true := by
  unfold cleanWord toLowerStr at *
  rw [show (String.mk (w.data.map toLowerGo)).data = w.data.map toLowerGo from rfl,
    List.all_map]
  rw [List.all_eq_true] at h ⊢
  intro x hx
  exact cleanChar_toLowerGo (h x hx)

theorem toLowerStr_idem (w : String) : toLowerStr (toLowerStr w) = toLowerStr w := by
  unfold toLowerStr
  refine congrArg String.mk ?_
  rw [show (String.mk (w.data.map toLowerGo)).data = w.data.map toLowerGo from rfl,
    List.map_map]
  refine congrFun (congrArg List.map ?_) w.data
  funext c
  exact toLowerGo_toLowerGo c

theorem casedWord_toLowerStr (w : String) : casedWord (toLowerStr w) = true := by
  unfold casedWord
  rw [toLowerStr_idem]
  simp

theorem titleChars_all {f : Char → Bool} (hf : ∀ c, f c = true → f (toUpperGo c) = true) :
    ∀ (prev : Char) (l : List Char), l.all f = true → (titleChars prev l).all f = true := by
  intro prev l
  induction l generalizing prev with
  | nil => intro _; simp [titleChars]
  | cons c cs ih =>
    intro h
    rw [List.all_cons, Bool.and_eq_true] at h
    simp only [titleChars, List.all_cons]
    rw [Bool.and_eq_true]
    refine ⟨?_, ih c h.2⟩
    split
    · exact hf c h.1
    · exact h.1

theorem cleanWord_titleGo {w : String} (h : cleanWord w = true) :
    cleanWord (titleGo w) = true :=
  titleChars_all (fun _ hc => cleanChar_toUpperGo hc) ' ' w.data h

theorem notLowerHead_titleGo (w : String) : notLowerHead (titleGo w) = true := by
  unfold notLowerHead titleGo
  cases hd : w.data with
  | nil => decide
  | cons c cs =>
    rw [show titleChars ' ' (c :: cs) =
        (if isSeparatorGo ' ' then toUpperGo c else c) :: titleChars c cs from rfl]
    rw [if_pos (by decide)]
    rw [show ((String.mk (toUpperGo c :: titleChars c cs)).data.getD 0 'A') = toUpperGo c
      from rfl]
    rw [isLowerGo_toUpperGo]
    rfl

theorem notLowerHead_append {a b : String} (ha : notLowerHead a = true)
    (hb : notLowerHead b = true) : notLowerHead (a ++ b) = true := by
  unfold notLowerHead at *
  rw [String.data_append]
  cases hd : a.data with
  | nil => simpa [hd] using hb
  | cons c cs => rw [hd] at ha; simpa using ha

theorem foldl_title_clean :
    ∀ (ws : List String) (acc : String), cleanWord acc = true →
      (∀ w ∈ ws, cleanWord w = true) →
      cleanWord (ws.foldl (fun fname w => fname ++ titleGo w) acc) = true := by
  intro ws
  induction ws with
  | nil => intro acc h _; simpa using h
  | cons w ws ih =>
    intro acc hacc hall
    simp only [List.foldl_cons]
    refine ih _ ?_ (fun x hx => hall x (List.mem_cons_of_mem _ hx))
    unfold cleanWord at *
    rw [String.data_append, List.all_append, Bool.and_eq_true]
    exact ⟨hacc, cleanWord_titleGo (hall w (List.mem_cons_self _ _))⟩

theorem foldl_title_head :
    ∀ (ws : List String) (acc : String), notLowerHead acc = true →
      notLowerHead (ws.foldl (fun fname w => fname ++ titleGo w) acc) = true := by
  intro ws
  induction ws with
  | nil => intro acc h; simpa using h
  | cons w ws ih =>
    intro acc hacc
    simp only [List.foldl_cons]
    exact ih _ (notLowerHead_append hacc (notLowerHead_titleGo w))

theorem cleanWord_joinGo :
    ∀ (ws : List String), (∀ w ∈ ws, cleanWord w = true) →
      cleanWord (joinGo " " ws) = true := by
  intro ws
  induction ws with
  | nil => intro _; decide
  | cons w ws ih =>
    intro h
    cases ws with
    | nil => simpa [joinGo] using h w (List.mem_cons_self _ _)
    | cons w' ws' =>
      show cleanWord (w ++ " " ++ joinGo " " (w' :: ws')) = true
      unfold cleanWord
      rw [String.data_append, String.data_append, List.all_append, List.all_append]
      have h1 : cleanWord w = true := h w (List.mem_cons_self _ _)
      have h2 : cleanWord (joinGo " " (w' :: ws')) = true :=
        ih (fun x hx => h x (List.mem_cons_of_mem _ hx))
      unfold cleanWord at h1 h2
      rw [h1, h2]
      decide

theorem notLowerHead_joinGo :
    ∀ (ws : List String), (∀ w, ws.head? = some w → notLowerHead w = true) →
      notLowerHead (joinGo " " ws) = true := by
  intro ws h
  match ws with
  | [] => decide
  | [w] => exact h w rfl
  | w :: w' :: ws' =>
    show notLowerHead (w ++ " " ++ joinGo " " (w' :: ws')) = true
    unfold notLowerHead
    rw [String.data_append, String.data_append]
    cases hd : w.data with
    | nil =>
      rw [List.nil_append,
        show (" ".data ++ (joinGo " " (w' :: ws')).data) =
          ' ' :: (joinGo " " (w' :: ws')).data from rfl,
        List.getD_cons_zero]
      decide
    | cons c cs =>
      have hh := h w rfl
      unfold notLowerHead at hh
      rw [hd] at hh
      simp only [List.cons_append, List.getD_cons_zero] at hh ⊢
      exact hh

theorem dropTake_all {f : Char → Bool} :
    ∀ (k a : Nat) (l : List Char),
      (∀ i, a ≤ i → i < a + k → f (l.getD i eofChar) = true) →
      ((l.drop a).take k).all f = true := by
  intro k
  induction k with
  | zero => intro a l _; simp
  | succ k ih =>
    intro a l h
    rw [List.take_succ, List.all_append, Bool.and_eq_true]
    refine ⟨ih a l (fun i h1 h2 => h i h1 (by omega)), ?_⟩
    rw [List.getElem?_drop]
    cases hg : l[a + k]? with
    | none => simp
    | some c =>
      have hc : l.getD (a + k) eofChar = c := by
        rw [List.getD_eq_getElem?_getD, hg]; rfl
      have hf := h (a + k) (by omega) (by omega)
      rw [hc] at hf
      simp [hf]

theorem spanChars_all_clean {p : Prettifier} (hle : p.start ≤ p.pos)
    (h : ∀ i, p.start ≤ i → i < p.pos → cleanChar (p.input.getD i eofChar) = true) :
    (spanChars p).all cleanChar = true := by
  unfold spanChars
  exact dropTake_all _ _ _ (fun i h1 h2 => h i h1 (by omega))

theorem inInitialism_of_empty {p : Prettifier} (h : p.pos ≤ p.start) :
    inInitialism p = true := by
  unfold Prettifier.inInitialism Prettifier.spanChars
  rw [Nat.sub_eq_zero_of_le h]
  simp

theorem start_lt_pos_of_not_init {p : Prettifier} (h : inInitialism p = false) :
    p.start < p.pos := by
  by_contra hc
  push_neg at hc
  rw [inInitialism_of_empty hc] at h
  exact Bool.true_eq_false.mp h

theorem goodWords_nil : GoodWords [] := by
  refine ⟨?_, ?_, ?_⟩ <;> simp

theorem renderWord_eq (p : Prettifier) :
    renderWord p =
      if p.words = [] then titleGo (String.mk (spanChars p))
      else if (String.mk (spanChars p)).length = 1 then toLowerStr (String.mk (spanChars p))
      else if !(inInitialism p) then toLowerStr (String.mk (spanChars p))
      else String.mk (spanChars p) := rfl

theorem emit_words (p : Prettifier) : (emit p).words = p.words ++ [renderWord p] := rfl

theorem goodWords_emit {p : Prettifier}
    (hspan : (spanChars p).all cleanChar = true) (h : GoodWords p.words) :
    GoodWords (emit p).words := by
  obtain ⟨hclean, hhead, htail⟩ := h
  have hcw : cleanWord (String.mk (spanChars p)) = true := hspan
  have hclean2 : cleanWord (renderWord p) = true := by
    rw [renderWord_eq]
    split
    · exact cleanWord_titleGo hcw
    · split
      · exact cleanWord_toLowerStr hcw
      · split
        · exact cleanWord_toLowerStr hcw
        · exact hcw
  cases hw : p.words with
  | nil =>
    have hr : renderWord p = titleGo (String.mk (spanChars p)) := by
      rw [renderWord_eq, if_pos hw]
    refine ⟨?_, ?_, ?_⟩
    · intro w hmem
      rw [emit_words, hw, List.nil_append] at hmem
      rw [List.mem_singleton.mp hmem, hr]
      exact cleanWord_titleGo hcw
    · intro w hmem
      rw [emit_words, hw, List.nil_append] at hmem
      have : w = renderWord p := by
        have : [renderWord p].head? = some (renderWord p) := rfl
        rw [this] at hmem
        exact (Option.some_inj.mp hmem).symm
      rw [this, hr]
      exact notLowerHead_titleGo _
    · intro w hmem
      rw [emit_words, hw, List.nil_append] at hmem
      simp at hmem
  | cons x xs =>
    have hne : ¬ (p.words = []) := by rw [hw]; simp
    have hcased : casedWord (renderWord p) = true := by
      rw [renderWord_eq, if_neg hne]
      split
      · exact casedWord_toLowerStr _
      · split
        · exact casedWord_toLowerStr _
        · rename_i hinit
          unfold casedWord
          have hit : inInitialism p = true := by
            rw [Bool.not_eq_true', Bool.not_eq_false] at hinit
            exact hinit
          rw [show (String.mk (spanChars p)).data.all (fun c => !(isLowerGo c)) =
              inInitialism p from rfl, hit]
          simp
    refine ⟨?_, ?_, ?_⟩
    · intro w hmem
      rw [emit_words] at hmem
      rcases List.mem_append.mp hmem with hmem | hmem
      · exact hclean w hmem
      · rw [List.mem_singleton.mp hmem]; exact hclean2
    · intro w hmem
      rw [emit_words, hw, List.cons_append] at hmem
      have : w = x := by
        rw [show (x :: (xs ++ [renderWord p])).head? = some x from rfl] at hmem
        exact (Option.some_inj.mp hmem).symm
      refine hhead w ?_
      rw [hw, this]
      rfl
    · intro w hmem
      rw [emit_words, hw, List.cons_append,
        show (x :: (xs ++ [renderWord p])).tail = xs ++ [renderWord p] from rfl] at hmem
      rcases List.mem_append.mp hmem with hmem | hmem
      · refine htail w ?_
        rw [hw]
        exact hmem
      · rw [List.mem_singleton.mp hmem]; exact hcased

theorem mwf_words (p : Prettifier) :
    (multiWordFunction p).words =
      [p.words.foldl (fun fname w => fname ++ titleGo w) ""] := rfl

theorem goodWords_mwf {p : Prettifier} (h : GoodWords p.words) :
    GoodWords (multiWordFunction p).words := by
  obtain ⟨hclean, _, _⟩ := h
  refine ⟨?_, ?_, ?_⟩
  · intro w hmem
    rw [mwf_words] at hmem
    rw [List.mem_singleton.mp hmem]
    exact foldl_title_clean p.words "" (by decide) hclean
  · intro w hmem
    rw [mwf_words] at hmem
    have : w = p.words.foldl (fun fname w => fname ++ titleGo w) "" := by
      rw [show [p.words.foldl (fun fname w => fname ++ titleGo w) ""].head? =
        some (p.words.foldl (fun fname w => fname ++ titleGo w) "") from rfl] at hmem
      exact (Option.some_inj.mp hmem).symm
    rw [this]
    exact foldl_title_head p.words "" (by decide)
  · intro w hmem
    rw [mwf_words] at hmem
    simp at hmem

/-! Scanner-step lemmas. -/

theorem next_fst {p : Prettifier} (h : p.pos < p.input.length) :
    (next p).1 = p.input.getD p.pos eofChar := by
  simp [next, h]

theorem next_snd {p : Prettifier} (h : p.pos < p.input.length) :
    (next p).2 = { p with pos := p.pos + 1 } := by
  simp [next, h]

theorem next_fst_end {p : Prettifier} (h : ¬ p.pos < p.input.length) :
    (next p).1 = eofChar := by
  simp [next, h]

theorem next_snd_end {p : Prettifier} (h : ¬ p.pos < p.input.length) :
    (next p).2 = p := by
  simp [next, h]

theorem backup_setPos (p : Prettifier) : backup { p with pos := p.pos + 1 } = p := rfl

theorem cleanChar_eofChar : cleanChar eofChar = true := by decide

theorem run_succ_between (n : Nat) (p : Prettifier) :
    run (n + 1) Tag.between p =
      if (next p).1 = eofChar then some (next p).2.words
      else if (next p).1 = '_' ∨ (next p).1 = '/' then run n Tag.between (skip (next p).2)
      else run n Tag.inword (next p).2 := rfl

theorem run_succ_inword (n : Nat) (p : Prettifier) :
    run (n + 1) Tag.inword p =
      if (next p).1 = eofChar then some (emit (next p).2).words
      else if (next p).1 = '_' then
        if !(emit (backup (next p).2)).seenUnderscore &&
            !(emit (backup (next p).2)).inSubTest then
          run n Tag.between (multiWordFunction (emit (backup (next p).2)))
        else run n Tag.between (emit (backup (next p).2))
      else if (next p).1 = '/' then
        run n Tag.between { emit (backup (next p).2) with inSubTest := true }
      else if isUpperGo (next p).1 then
        if prevRune (backup (next p).2) ≠ '-' ∧ !(inInitialism (backup (next p).2)) then
          run n Tag.between (emit (backup (next p).2))
        else run n Tag.inword (next (backup (next p).2)).2
      else if isDigitGo (next p).1 then
        run n Tag.inword
          (next (if !(isDigitGo (prevRune (backup (next p).2))) ∧
                    prevRune (backup (next p).2) ≠ '-' ∧
                    prevRune (backup (next p).2) ≠ '=' ∧
                    !(inInitialism (backup (next p).2)) then
                  emit (backup (next p).2)
                else backup (next p).2)).2
      else
        if inInitialism (backup (next p).2) ∧
            (backup (next p).2).pos - (backup (next p).2).start > 1 then
          run n Tag.inword (emit (backup (backup (next p).2)))
        else run n Tag.inword (next (backup (next p).2)).2 := rfl

/-! The master induction: with enough fuel the scan completes, and the word
list it returns satisfies the `GoodWords` invariant. -/

theorem run_good :
    ∀ (n : Nat) (tag : Tag) (p : Prettifier), Inv tag p → GoodWords p.words →
      measureP p < n → ∃ ws, run n tag p = some ws ∧ GoodWords ws := by
  intro n
  induction n with
  | zero => intro tag p _ _ hm; omega
  | succ n ih =>
    intro tag p hinv hgood hm
    have hm' : 2 * (p.input.length - p.start) + (p.input.length - p.pos) < n + 1 := hm
    cases tag with
    | between =>
      obtain ⟨hsp, hpl⟩ := hinv
      rw [run_succ_between]
      by_cases hlt : p.pos < p.input.length
      · rw [next_fst hlt, next_snd hlt]
        set c := p.input.getD p.pos eofChar with hc
        by_cases hceof : c = eofChar
        · rw [if_pos hceof]
          exact ⟨p.words, rfl, hgood⟩
        · rw [if_neg hceof]
          by_cases hsep : c = '_' ∨ c = '/'
          · rw [if_pos hsep]
            refine ih Tag.between (skip { p with pos := p.pos + 1 })
              ⟨rfl, show p.pos + 1 ≤ p.input.length from by omega⟩ hgood ?_
            show 2 * (p.input.length - (p.pos + 1)) + (p.input.length - (p.pos + 1)) < n
            omega
          · rw [if_neg hsep]
            have hcc : cleanChar c = true := by
              refine cleanChar_iff.mpr ⟨fun h95 => hsep (Or.inl ?_), fun h47 => hsep (Or.inr ?_)⟩
              · exact char_eq_iff_toNat.mpr (by rw [h95]; decide)
              · exact char_eq_iff_toNat.mpr (by rw [h47]; decide)
            refine ih Tag.inword { p with pos := p.pos + 1 }
              ⟨show p.start ≤ p.pos + 1 from by omega,
               show p.pos + 1 ≤ p.input.length from by omega, ?_, ?_⟩ hgood ?_
            · intro i h1 h2
              have hi : i = p.pos := by
                have hs1 : p.start ≤ i := h1
                have hs2 : i < p.pos + 1 := h2
                omega
              show cleanChar (p.input.getD i eofChar) = true
              rw [show p.input.getD i eofChar = c from by rw [hi, hc]]
              exact hcc
            · intro habs
              exact absurd habs (show ¬ p.start = p.pos + 1 from by omega)
            · show 2 * (p.input.length - p.start) + (p.input.length - (p.pos + 1)) < n
              omega
      · rw [next_fst_end hlt, if_pos rfl, next_snd_end hlt]
        exact ⟨p.words, rfl, hgood⟩
    | inword =>
      obtain ⟨hsple, hpl, hspan, hempty⟩ := hinv
      rw [run_succ_inword]
      by_cases hlt : p.pos < p.input.length
      · rw [next_fst hlt, next_snd hlt, backup_setPos]
        set c := p.input.getD p.pos eofChar with hc
        by_cases hceof : c = eofChar
        · rw [if_pos hceof]
          refine ⟨_, rfl, goodWords_emit ?_ hgood⟩
          refine spanChars_all_clean (show p.start ≤ p.pos + 1 from by omega) ?_
          intro i h1 h2
          rcases Nat.lt_or_ge i p.pos with h | h
          · exact hspan i h1 h
          · have h2x : i < p.pos + 1 := h2
            have hi : i = p.pos := by omega
            show cleanChar (p.input.getD i eofChar) = true
            rw [show p.input.getD i eofChar = c from by rw [hi, hc], hceof]
            exact cleanChar_eofChar
        · rw [if_neg hceof]
          by_cases hund : c = '_'
          · rw [if_pos hund]
            have hslt : p.start < p.pos := by
              rcases Nat.lt_or_ge p.start p.pos with h | h
              · exact h
              · exfalso
                have heq : p.start = p.pos := by omega
                have := hempty heq
                rw [hund] at this
                exact absurd this (by decide)
            have hgood2 : GoodWords (emit p).words :=
              goodWords_emit (spanChars_all_clean (by omega) hspan) hgood
            by_cases hflag : (!(emit p).seenUnderscore && !(emit p).inSubTest) = true
            · rw [if_pos hflag]
              refine ih Tag.between (multiWordFunction (emit p))
                ⟨rfl, show p.pos ≤ p.input.length from hpl⟩ (goodWords_mwf hgood2) ?_
              show 2 * (p.input.length - p.pos) + (p.input.length - p.pos) < n
              omega
            · rw [if_neg hflag]
              refine ih Tag.between (emit p)
                ⟨rfl, show p.pos ≤ p.input.length from hpl⟩ hgood2 ?_
              show 2 * (p.input.length - p.pos) + (p.input.length - p.pos) < n
              omega
          · rw [if_neg hund]
            by_cases hsl : c = '/'
            · rw [if_pos hsl]
              have hslt : p.start < p.pos := by
                rcases Nat.lt_or_ge p.start p.pos with h | h
                · exact h
                · exfalso
                  have heq : p.start = p.pos := by omega
                  have := hempty heq
                  rw [hsl] at this
                  exact absurd this (by decide)
              have hgood2 : GoodWords (emit p).words :=
                goodWords_emit (spanChars_all_clean (by omega) hspan) hgood
              refine ih Tag.between { emit p with inSubTest := true }
                ⟨rfl, show p.pos ≤ p.input.length from hpl⟩ hgood2 ?_
              show 2 * (p.input.length - p.pos) + (p.input.length - p.pos) < n
              omega
            · rw [if_neg hsl]
              by_cases hup : isUpperGo c = true
              · rw [if_pos hup]
                have hcc : cleanChar c = true := by
                  have := isUpperGo_iff.mp hup
                  refine cleanChar_iff.mpr ⟨by omega, by omega⟩
                by_cases hcond : prevRune p ≠ '-' ∧ (!(inInitialism p)) = true
                · rw [if_pos hcond]
                  have hslt : p.start < p.pos := by
                    refine start_lt_pos_of_not_init ?_
                    have h2 := hcond.2
                    rwa [Bool.not_eq_true'] at h2
                  refine ih Tag.between (emit p)
                    ⟨rfl, show p.pos ≤ p.input.length from hpl⟩
                    (goodWords_emit (spanChars_all_clean (by omega) hspan) hgood) ?_
                  show 2 * (p.input.length - p.pos) + (p.input.length - p.pos) < n
                  omega
                · rw [if_neg hcond, next_snd hlt]
                  refine ih Tag.inword { p with pos := p.pos + 1 }
                    ⟨show p.start ≤ p.pos + 1 from by omega,
                     show p.pos + 1 ≤ p.input.length from by omega, ?_, ?_⟩ hgood ?_
                  · intro i h1 h2
                    rcases Nat.lt_or_ge i p.pos with h | h
                    · exact hspan i h1 h
                    · have h2x : i < p.pos + 1 := h2
                      have hi : i = p.pos := by omega
                      show cleanChar (p.input.getD i eofChar) = true
                      rw [show p.input.getD i eofChar = c from by rw [hi, hc]]
                      exact hcc
                  · intro habs
                    exact absurd habs (show ¬ p.start = p.pos + 1 from by omega)
                  · show 2 * (p.input.length - p.start) + (p.input.length - (p.pos + 1)) < n
                    omega
              · rw [if_neg hup]
                by_cases hdig : isDigitGo c = true
                · rw [if_pos hdig]
                  have hcc : cleanChar c = true := by
                    have := isDigitGo_iff.mp hdig
                    refine cleanChar_iff.mpr ⟨by omega, by omega⟩
                  by_cases hcond : (!(isDigitGo (prevRune p))) = true ∧ prevRune p ≠ '-' ∧
                      prevRune p ≠ '=' ∧ (!(inInitialism p)) = true
                  · rw [if_pos hcond]
                    have hslt : p.start < p.pos := by
                      refine start_lt_pos_of_not_init ?_
                      have h2 := hcond.2.2.2
                      rwa [Bool.not_eq_true'] at h2
                    have hlt2 : (emit p).pos < (emit p).input.length := hlt
                    rw [next_snd hlt2]
                    refine ih Tag.inword { emit p with pos := (emit p).pos + 1 }
                      ⟨show p.pos ≤ p.pos + 1 from by omega,
                       show p.pos + 1 ≤ p.input.length from by omega, ?_, ?_⟩
                      (goodWords_emit (spanChars_all_clean (by omega) hspan) hgood) ?_
                    · intro i h1 h2
                      have hi : i = p.pos := by
                        have hs1 : p.pos ≤ i := h1
                        have hs2 : i < p.pos + 1 := h2
                        omega
                      show cleanChar (p.input.getD i eofChar) = true
                      rw [show p.input.getD i eofChar = c from by rw [hi, hc]]
                      exact hcc
                    · intro habs
                      exact absurd habs (show ¬ p.pos = p.pos + 1 from by omega)
                    · show 2 * (p.input.length - p.pos) + (p.input.length - (p.pos + 1)) < n
                      omega
                  · rw [if_neg hcond, next_snd hlt]
                    refine ih Tag.inword { p with pos := p.pos + 1 }
                      ⟨show p.start ≤ p.pos + 1 from by omega,
                       show p.pos + 1 ≤ p.input.length from by omega, ?_, ?_⟩ hgood ?_
                    · intro i h1 h2
                      rcases Nat.lt_or_ge i p.pos with h | h
                      · exact hspan i h1 h
                      · have h2x : i < p.pos + 1 := h2
                        have hi : i = p.pos := by omega
                        show cleanChar (p.input.getD i eofChar) = true
                        rw [show p.input.getD i eofChar = c from by rw [hi, hc]]
                        exact hcc
                    · intro habs
                      exact absurd habs (show ¬ p.start = p.pos + 1 from by omega)
                    · show 2 * (p.input.length - p.start) + (p.input.length - (p.pos + 1)) < n
                      omega
                · rw [if_neg hdig]
                  have hcc : cleanChar c = true := by
                    refine cleanChar_iff.mpr ⟨fun h95 => hund ?_, fun h47 => hsl ?_⟩
                    · exact char_eq_iff_toNat.mpr (by rw [h95]; decide)
                    · exact char_eq_iff_toNat.mpr (by rw [h47]; decide)
                  by_cases hcond : inInitialism p = true ∧ p.pos - p.start > 1
                  · rw [if_pos hcond]
                    have hgap : p.start + 1 < p.pos := by omega
                    refine ih Tag.inword (emit (backup p))
                      ⟨show p.pos - 1 ≤ p.pos - 1 from le_refl _,
                       show p.pos - 1 ≤ p.input.length from by omega, ?_, ?_⟩
                      (goodWords_emit ?_ hgood) ?_
                    · intro i h1 h2
                      have h1x : p.pos - 1 ≤ i := h1
                      have h2x : i < p.pos - 1 := h2
                      exact absurd h2x (by omega)
                    · intro _
                      exact hspan (p.pos - 1) (by omega) (by omega)
                    · refine spanChars_all_clean (show p.start ≤ p.pos - 1 from by omega) ?_
                      intro i h1 h2
                      have h1x : p.start ≤ i := h1
                      have h2x : i < p.pos - 1 := h2
                      exact hspan i h1x (by omega)
                    · show 2 * (p.input.length - (p.pos - 1)) +
                        (p.input.length - (p.pos - 1)) < n
                      omega
                  · rw [if_neg hcond, next_snd hlt]
                    refine ih Tag.inword { p with pos := p.pos + 1 }
                      ⟨show p.start ≤ p.pos + 1 from by omega,
                       show p.pos + 1 ≤ p.input.length from by omega, ?_, ?_⟩ hgood ?_
                    · intro i h1 h2
                      rcases Nat.lt_or_ge i p.pos with h | h
                      · exact hspan i h1 h
                      · have h2x : i < p.pos + 1 := h2
                        have hi : i = p.pos := by omega
                        show cleanChar (p.input.getD i eofChar) = true
                        rw [show p.input.getD i eofChar = c from by rw [hi, hc]]
                        exact hcc
                    · intro habs
                      exact absurd habs (show ¬ p.start = p.pos + 1 from by omega)
                    · show 2 * (p.input.length - p.start) + (p.input.length - (p.pos + 1)) < n
                      omega
      · rw [next_fst_end hlt, if_pos rfl, next_snd_end hlt]
        exact ⟨_, rfl, goodWords_emit (spanChars_all_clean hsple hspan) hgood⟩

/-- The fuel chosen by `Prettify` always suffices, and the resulting word list
satisfies the `GoodWords` invariant. -/
theorem run_total (input : String) :
    ∃ ws, prettifyWords input = some ws ∧ GoodWords ws := by
  have h := run_good (fuelFor (trimTestMarker input).data.length) Tag.between
    ⟨(trimTestMarker input).data, 0, 0, [], false, false⟩
    (show InvB _ from ⟨rfl, Nat.zero_le _⟩) goodWords_nil ?_
  · exact h
  · show 2 * ((trimTestMarker input).data.length - 0) +
      ((trimTestMarker input).data.length - 0) < 3 * (trimTestMarker input).data.length + 1
    omega

theorem Prettify_eq_join {input : String} {ws : List String}
    (h : prettifyWords input = some ws) : Prettify input = joinGo " " ws := by
  unfold Prettify
  rw [h]

/-- The embedding reproduces every active case of the repository's
`TestPrettify` table in `prettifier_test.go` (the remaining cases appear
inside the claim theorems below). -/
theorem prettify_matches_repo_tests :
    Prettify "TestS" = "S" ∧
    Prettify "TestSum" = "Sum" ∧
    Prettify "TestSumCorrectlySumsInputNumbers" = "Sum correctly sums input numbers" ∧
    Prettify "TestFooGeneratesValidPDFFile" = "Foo generates valid PDF file" ∧
    Prettify "TestFooGeneratesValidPDF" = "Foo generates valid PDF" ∧
    Prettify "TestJSONSucks" = "JSON sucks" ∧
    Prettify "TestFilterReturnsOKIfThereAreNoTestFailures" =
      "Filter returns OK if there are no test failures" ∧
    Prettify "TestCategoryTrimsLEADINGSpacesFromValidCategory" =
      "Category trims LEADING spaces from valid category" ∧
    Prettify "Test" = "" ∧
    Prettify "Test_Foo_GeneratesValidPDFFile" = "Foo generates valid PDF file" ∧
    Prettify "Test_Foo__Works" = "Foo works" ∧
    Prettify "TestFooDoesAThing" = "Foo does a thing" ∧
    Prettify "TestSliceSink/Empty_line_between_two_existing_lines" =
      "Slice sink empty line between two existing lines" ∧
    Prettify "TestExec/go_help" = "Exec go help" ∧
    Prettify "TestMatch" = "Match" ∧
    Prettify "TestParseJSON_CorrectlyParsesASingleGoTestJSONOutputLine" =
      "ParseJSON correctly parses a single go test JSON output line" ∧
    Prettify "TestSentence/does_x,_correctly" = "Sentence does x, correctly" ∧
    Prettify "TestExtractFiles/Truncated_bzip2_which_will_return_an_error" =
      "Extract files truncated bzip 2 which will return an error" := by
  repeat' constructor

/-! Claim theorems. -/

/-- C9: Totality and termination.  For every input string the scan of
`Prettify` completes within the chosen fuel (the state-function loop cannot
run forever), yielding a word list that `Prettify` joins into the returned
sentence. -/
theorem claim_C9_totality (input : String) :
    ∃ ws : List String, prettifyWords input = some ws ∧ Prettify input = joinGo " " ws := by
  obtain ⟨ws, h1, _⟩ := run_total input
  exact ⟨ws, h1, Prettify_eq_join h1⟩

/-- C5: Separator-free output.  For every input string, no rune of the
sentence returned by `Prettify` is the underscore or the slash. -/
theorem claim_C5_no_separators (input : String) :
    (Prettify input).data.all (fun c => !(c == '_' || c == '/')) = true := by
  obtain ⟨ws, h1, h3⟩ := run_total input
  rw [Prettify_eq_join h1]
  exact cleanWord_joinGo ws h3.1

/-- C6 counterexample: `Prettify "Test8Things"` returns the non-empty sentence
`"8 things"`, whose first code point `8` is not uppercase, refuting the claim
that the first code point of every non-empty output is uppercase. -/
theorem claim_C6_counterexample :
    Prettify "Test8Things" = "8 things" ∧
    Prettify "Test8Things" ≠ "" ∧
    isUpperGo ((Prettify "Test8Things").data.getD 0 'a') = false := by
  refine ⟨by decide, by decide, by decide⟩

/-- C6 amended: if the sentence returned by `Prettify` is non-empty, its first
code point is never a lowercase letter (so when it is a cased letter it is
uppercase; a leading digit or other non-letter, as in `"8 things"`, is kept
as is).  Stated with a non-lowercase placeholder for the empty case. -/
theorem claim_C6_amended (input : String) :
    isLowerGo ((Prettify input).data.getD 0 'A') = false := by
  obtain ⟨ws, h1, h3⟩ := run_total input
  rw [Prettify_eq_join h1]
  have h := notLowerHead_joinGo ws h3.2.1
  unfold notLowerHead at h
  rwa [Bool.not_eq_true'] at h

/-- C4: Casing of emitted words.  A word emitted into a non-lead position is:
lowered rune-wise when it is a single rune; kept verbatim when it is at least
two runes long and its span contains no lowercase rune (an initialism);
lowered rune-wise otherwise.  Consequently every non-lead word of a `Prettify`
scan is either fixed by rune-wise lowering or free of lowercase runes. -/
theorem claim_C4_casing :
    (∀ p : Prettifier, p.words ≠ [] →
      ((spanChars p).length = 1 →
        (emit p).words = p.words ++ [toLowerStr (String.mk (spanChars p))]) ∧
      (2 ≤ (spanChars p).length → inInitialism p = true →
        (emit p).words = p.words ++ [String.mk (spanChars p)]) ∧
      (2 ≤ (spanChars p).length → inInitialism p = false →
        (emit p).words = p.words ++ [toLowerStr (String.mk (spanChars p))])) ∧
    (∀ input : String, (wordsOf input).tail.all casedWord = true) := by
  constructor
  · intro p hne
    have hlen : (String.mk (spanChars p)).length = (spanChars p).length := rfl
    refine ⟨?_, ?_, ?_⟩
    · intro h1
      rw [emit_words, renderWord_eq, if_neg hne, if_pos (by rw [hlen]; exact h1)]
    · intro h2 hinit
      rw [emit_words, renderWord_eq, if_neg hne, if_neg (by rw [hlen]; omega),
        if_neg (by rw [hinit]; decide)]
    · intro h2 hinit
      rw [emit_words, renderWord_eq, if_neg hne, if_neg (by rw [hlen]; omega),
        if_pos (by rw [hinit]; decide)]
  · intro input
    obtain ⟨ws, h1, h3⟩ := run_total input
    rw [show wordsOf input = ws from by unfold wordsOf; rw [h1]; rfl]
    rw [List.all_eq_true]
    exact h3.2.2

/-- C4 witness: a concrete initialism span (`UTF8`) is appended verbatim after
an existing word, and a concrete scan has only properly cased non-lead
words. -/
theorem claim_C4_casing_witness :
    (emit ⟨"UTF8C".data, 0, 4, ["Foo"], true, false⟩).words = ["Foo", "UTF8"] ∧
    (wordsOf "TestFooGeneratesValidPDFFile").tail.all casedWord = true := by
  constructor
  · have h := (claim_C4_casing.1 ⟨"UTF8C".data, 0, 4, ["Foo"], true, false⟩
      (by decide)).2.1 (by decide) (by decide)
    rw [h]
    decide
  · exact claim_C4_casing.2 "TestFooGeneratesValidPDFFile"

/-- C3: Digit attachment.  In the `inWord` state, a digit under the cursor is
absorbed into the current word when the previous rune is a digit, `-` or `=`,
or when the span so far is an initialism; otherwise the span so far is emitted
as one word and the digit starts a new word.  The two repository examples
render accordingly. -/
theorem claim_C3_digit_attachment :
    (∀ (n : Nat) (p : Prettifier), p.pos < p.input.length →
      isDigitGo (p.input.getD p.pos eofChar) = true →
      ((isDigitGo (prevRune p) = true ∨ prevRune p = '-' ∨ prevRune p = '=' ∨
          inInitialism p = true) →
        run (n + 1) Tag.inword p = run n Tag.inword { p with pos := p.pos + 1 }) ∧
      (isDigitGo (prevRune p) = false → prevRune p ≠ '-' → prevRune p ≠ '=' →
        inInitialism p = false →
        run (n + 1) Tag.inword p = run n Tag.inword { emit p with pos := p.pos + 1 } ∧
        (emit p).words = p.words ++ [renderWord p])) ∧
    Prettify "TestFooDoes8Things" = "Foo does 8 things" ∧
    Prettify "TestFooGeneratesUTF8Correctly" = "Foo generates UTF8 correctly" := by
  refine ⟨?_, by decide, by decide⟩
  intro n p hlt hdig
  have hnum := isDigitGo_iff.mp hdig
  have hceof : ¬ p.input.getD p.pos eofChar = eofChar := by
    intro h; rw [h] at hdig; exact absurd hdig (by decide)
  have hund : ¬ p.input.getD p.pos eofChar = '_' := by
    intro h; rw [h] at hdig; exact absurd hdig (by decide)
  have hsl : ¬ p.input.getD p.pos eofChar = '/' := by
    intro h; rw [h] at hdig; exact absurd hdig (by decide)
  have hup : ¬ isUpperGo (p.input.getD p.pos eofChar) = true := by
    intro h; have := isUpperGo_iff.mp h; omega
  constructor
  · intro habsorb
    rw [run_succ_inword, next_fst hlt, next_snd hlt, backup_setPos,
      if_neg hceof, if_neg hund, if_neg hsl, if_neg hup, if_pos hdig,
      if_neg (show ¬ ((!(isDigitGo (prevRune p))) = true ∧ prevRune p ≠ '-' ∧
          prevRune p ≠ '=' ∧ (!(inInitialism p)) = true) from ?_),
      next_snd hlt]
    rcases habsorb with h | h | h | h
    · intro hcond; rw [Bool.not_eq_true'] at hcond; rw [hcond.1] at h; exact absurd h (by decide)
    · exact fun hcond => hcond.2.1 h
    · exact fun hcond => hcond.2.2.1 h
    · intro hcond
      have h4 := hcond.2.2.2
      rw [Bool.not_eq_true'] at h4
      rw [h4] at h
      exact absurd h (by decide)
  · intro h1 h2 h3 h4
    refine ⟨?_, emit_words p⟩
    rw [run_succ_inword, next_fst hlt, next_snd hlt, backup_setPos,
      if_neg hceof, if_neg hund, if_neg hsl, if_neg hup, if_pos hdig,
      if_pos (show (!(isDigitGo (prevRune p))) = true ∧ prevRune p ≠ '-' ∧
          prevRune p ≠ '=' ∧ (!(inInitialism p)) = true from
        ⟨by rw [Bool.not_eq_true', h1], h2, h3, by rw [Bool.not_eq_true', h4]⟩)]
    rw [next_snd (show (emit p).pos < (emit p).input.length from hlt)]
    rfl

/-- C3 witness: the absorb case on the span `UTF` followed by `8`, and the
break case on the span `Does` followed by `8`. -/
theorem claim_C3_digit_attachment_witness :
    run 21 Tag.inword ⟨"UTF8".data, 0, 3, ["Foo"], false, false⟩ =
      run 20 Tag.inword ⟨"UTF8".data, 0, 4, ["Foo"], false, false⟩ ∧
    run 21 Tag.inword ⟨"Does8".data, 0, 4, ["Foo"], false, false⟩ =
      run 20 Tag.inword
        ⟨"Does8".data, 4, 5, ["Foo", "does"], false, false⟩ := by
  constructor
  · exact (claim_C3_digit_attachment.1 20 ⟨"UTF8".data, 0, 3, ["Foo"], false, false⟩
      (by decide) (by decide)).1 (Or.inr (Or.inr (Or.inr (by decide))))
  · have h := ((claim_C3_digit_attachment.1 20 ⟨"Does8".data, 0, 4, ["Foo"], false, false⟩
      (by decide) (by decide)).2 (by decide) (by decide) (by decide) (by decide)).1
    rw [h]
    decide

/-- C2 counterexample: the hyphenated span `FS-Test71` does not remain one
word: `Prettify` splits it into `f`, `S-`, `test` and `71`, so the output does
not contain `FS-Test71`, refuting the claim that a hyphen suspends all further
word-boundary detection until the next separator. -/
theorem claim_C2_counterexample :
    Prettify "TestListObjects/FS-Test71" = "List objects f S- test 71" ∧
    ¬ ("FS-Test71".data <:+: (Prettify "TestListObjects/FS-Test71").data) := by
  refine ⟨by decide, by decide⟩

/-- C2 amended: a hyphen only suppresses the word boundary at the rune
immediately after it: in the `inWord` state an uppercase rune or a digit whose
immediately preceding rune is `-` is absorbed into the current word.
Detection resumes afterwards, so spans whose letters are all lowercase
(`well-formed`, `nyc-taxi-data-100k.csv`) stay one word, while `FS-Test71` is
split (see the counterexample). -/
theorem claim_C2_amended :
    (∀ (n : Nat) (p : Prettifier), p.pos < p.input.length →
      isUpperGo (p.input.getD p.pos eofChar) = true → prevRune p = '-' →
      run (n + 1) Tag.inword p = run n Tag.inword { p with pos := p.pos + 1 }) ∧
    (∀ (n : Nat) (p : Prettifier), p.pos < p.input.length →
      isDigitGo (p.input.getD p.pos eofChar) = true → prevRune p = '-' →
      run (n + 1) Tag.inword p = run n Tag.inword { p with pos := p.pos + 1 }) ∧
    Prettify "TestFoo/has_well-formed_output" = "Foo has well-formed output" ∧
    Prettify "TestReadExtended/nyc-taxi-data-100k.csv" =
      "Read extended nyc-taxi-data-100k.csv" := by
  refine ⟨?_, ?_, by decide, by decide⟩
  · intro n p hlt hup hprev
    have hbounds := isUpperGo_iff.mp hup
    have hceof : ¬ p.input.getD p.pos eofChar = eofChar := by
      intro h; rw [h] at hup; exact absurd hup (by decide)
    have hund : ¬ p.input.getD p.pos eofChar = '_' := by
      intro h; rw [h] at hup; exact absurd hup (by decide)
    have hsl : ¬ p.input.getD p.pos eofChar = '/' := by
      intro h; rw [h] at hup; exact absurd hup (by decide)
    rw [run_succ_inword, next_fst hlt, next_snd hlt, backup_setPos,
      if_neg hceof, if_neg hund, if_neg hsl, if_pos hup,
      if_neg (show ¬ (prevRune p ≠ '-' ∧ (!(inInitialism p)) = true) from
        fun hcond => hcond.1 hprev),
      next_snd hlt]
  · intro n p hlt hdig hprev
    have hbounds := isDigitGo_iff.mp hdig
    have hceof : ¬ p.input.getD p.pos eofChar = eofChar := by
      intro h; rw [h] at hdig; exact absurd hdig (by decide)
    have hund : ¬ p.input.getD p.pos eofChar = '_' := by
      intro h; rw [h] at hdig; exact absurd hdig (by decide)
    have hsl : ¬ p.input.getD p.pos eofChar = '/' := by
      intro h; rw [h] at hdig; exact absurd hdig (by decide)
    have hup : ¬ isUpperGo (p.input.getD p.pos eofChar) = true := by
      intro h; have := isUpperGo_iff.mp h; omega
    rw [run_succ_inword, next_fst hlt, next_snd hlt, backup_setPos,
      if_neg hceof, if_neg hund, if_neg hsl, if_neg hup, if_pos hdig,
      if_neg (show ¬ ((!(isDigitGo (prevRune p))) = true ∧ prevRune p ≠ '-' ∧
          prevRune p ≠ '=' ∧ (!(inInitialism p)) = true) from
        fun hcond => hcond.2.1 hprev),
      next_snd hlt]

/-- C2 witness: an uppercase rune right after a hyphen (`S-T`) and a digit
right after a hyphen (`a-1`) are both absorbed. -/
theorem claim_C2_amended_witness :
    run 11 Tag.inword ⟨"S-T".data, 0, 2, [], false, false⟩ =
      run 10 Tag.inword ⟨"S-T".data, 0, 3, [], false, false⟩ ∧
    run 11 Tag.inword ⟨"a-1".data, 0, 2, ["X"], false, false⟩ =
      run 10 Tag.inword ⟨"a-1".data, 0, 3, ["X"], false, false⟩ := by
  constructor
  · exact claim_C2_amended.1 10 ⟨"S-T".data, 0, 2, [], false, false⟩
      (by decide) (by decide) (by decide)
  · exact claim_C2_amended.2.1 10 ⟨"a-1".data, 0, 2, ["X"], false, false⟩
      (by decide) (by decide) (by decide)

/-- C7 counterexample: the hyphen-joined span `Erasure-Test` does not appear
in the output with its original casing: it is rendered `erasure-test`,
refuting the claim that every hyphen-joined span passes through with the same
internal casing. -/
theorem claim_C7_counterexample :
    Prettify "TestListObjectsVersionedFolders/Erasure-Test" =
      "List objects versioned folders erasure-test" ∧
    ¬ ("Erasure-Test".data <:+:
        (Prettify "TestListObjectsVersionedFolders/Erasure-Test").data) := by
  refine ⟨by decide, by decide⟩

/-- C7 amended: while the current word already contains a lowercase rune, a
hyphen, an apostrophe or any other mark (not a separator, not uppercase, not a
digit) is absorbed into the word, so all-lowercase hyphenated and
apostrophised spans pass through verbatim and unsplit; spans containing
uppercase runes may instead be lowercased (`Erasure-Test`, see the
counterexample) or split (`FS-Test71`). -/
theorem claim_C7_amended :
    (∀ (n : Nat) (p : Prettifier), p.pos < p.input.length →
      p.input.getD p.pos eofChar ≠ eofChar →
      p.input.getD p.pos eofChar ≠ '_' →
      p.input.getD p.pos eofChar ≠ '/' →
      isUpperGo (p.input.getD p.pos eofChar) = false →
      isDigitGo (p.input.getD p.pos eofChar) = false →
      inInitialism p = false →
      run (n + 1) Tag.inword p = run n Tag.inword { p with pos := p.pos + 1 }) ∧
    Prettify "TestFoo/has_well-formed_output" = "Foo has well-formed output" ∧
    Prettify "TestFoo/does_what's_required" = "Foo does what's required" := by
  refine ⟨?_, by decide, by decide⟩
  intro n p hlt hceof hund hsl hup hdig hinit
  rw [run_succ_inword, next_fst hlt, next_snd hlt, backup_setPos,
    if_neg hceof, if_neg hund, if_neg hsl,
    if_neg (show ¬ isUpperGo (p.input.getD p.pos eofChar) = true from by rw [hup]; decide),
    if_neg (show ¬ isDigitGo (p.input.getD p.pos eofChar) = true from by rw [hdig]; decide),
    if_neg (show ¬ (inInitialism p = true ∧ p.pos - p.start > 1) from ?_),
    next_snd hlt]
  intro hcond
  rw [hinit] at hcond
  exact absurd hcond.1 (by decide)

/-- C7 witness: a period after the lowercase span `ab` is absorbed into the
word. -/
theorem claim_C7_amended_witness :
    run 11 Tag.inword ⟨"ab.c".data, 0, 2, [], false, false⟩ =
      run 10 Tag.inword ⟨"ab.c".data, 0, 3, [], false, false⟩ :=
  claim_C7_amended.1 10 ⟨"ab.c".data, 0, 2, [], false, false⟩
    (by decide) (by decide) (by decide) (by decide) (by decide) (by decide) (by decide)

/-- C1 counterexample: in `"Test/AbCd_E"` the underscore occurs after the
first `/`, yet the multiword-function merge still fires (the slash was
consumed in the between-words state, which does not set `inSubTest`), giving
`"AbCd e"` instead of the unmerged `"Ab cd e"`. -/
theorem claim_C1_counterexample :
    Prettify "Test/AbCd_E" = "AbCd e" ∧
    ("AbCd".data <:+: (Prettify "Test/AbCd_E").data) := by
  refine ⟨by decide, by decide⟩

/-- C1 amended: on reading `_` in the `inWord` state the scanner emits the
pending span and then merges all words emitted so far into their title-cased
concatenation exactly when `seenUnderscore` and `inSubTest` are both still
false; the merge sets `seenUnderscore`, so it fires at most once.  `inSubTest`
is set only when a `/` is consumed inside a word, so an underscore on the
other side of such a slash never merges, while a slash consumed between words
(e.g. a leading one) does not prevent a later merge.  The repository examples
render accordingly. -/
theorem claim_C1_amended :
    (∀ (n : Nat) (p : Prettifier), p.pos < p.input.length →
      p.input.getD p.pos eofChar = '_' →
      run (n + 1) Tag.inword p =
        (if p.seenUnderscore = false ∧ p.inSubTest = false then
          run n Tag.between (multiWordFunction (emit p))
        else run n Tag.between (emit p)) ∧
      (multiWordFunction (emit p)).words =
        [(emit p).words.foldl (fun fname w => fname ++ titleGo w) ""] ∧
      (multiWordFunction (emit p)).seenUnderscore = true) ∧
    Prettify "TestFindFiles_WorksCorrectly" = "FindFiles works correctly" ∧
    Prettify "TestFindFiles_Does_Stuff" = "FindFiles does stuff" ∧
    Prettify "TestCallingTheFunction/Does_Stuff" = "Calling the function does stuff" ∧
    Prettify "TestFindFiles_/WorksCorrectly" = "FindFiles works correctly" := by
  refine ⟨?_, by decide, by decide, by decide, by decide⟩
  intro n p hlt hund
  have hceof : ¬ p.input.getD p.pos eofChar = eofChar := by
    rw [hund]; decide
  refine ⟨?_, rfl, rfl⟩
  rw [run_succ_inword, next_fst hlt, next_snd hlt, backup_setPos,
    if_neg hceof, if_pos hund]
  cases hs : p.seenUnderscore <;> cases hi : p.inSubTest <;>
    simp [show (emit p).seenUnderscore = p.seenUnderscore from rfl,
      show (emit p).inSubTest = p.inSubTest from rfl, hs, hi]

/-- C1 witness: with both flags false, reading `_` after the span `Ab` merges;
with `inSubTest` set, it does not. -/
theorem claim_C1_amended_witness :
    run 11 Tag.inword ⟨"Ab_C".data, 0, 2, [], false, false⟩ =
      run 10 Tag.between (multiWordFunction (emit ⟨"Ab_C".data, 0, 2, [], false, false⟩)) ∧
    run 11 Tag.inword ⟨"Ab_C".data, 0, 2, [], false, true⟩ =
      run 10 Tag.between (emit ⟨"Ab_C".data, 0, 2, [], false, true⟩) := by
  constructor
  · have h := (claim_C1_amended.1 10 ⟨"Ab_C".data, 0, 2, [], false, false⟩
      (by decide) (by decide)).1
    rw [h]
    decide
  · have h := (claim_C1_amended.1 10 ⟨"Ab_C".data, 0, 2, [], false, true⟩
      (by decide) (by decide)).1
    rw [h]
    decide

/-- C8 counterexample: `Prettify` does not drop an opening quote: the quote
before `hello` is preserved in the output, refuting the claim that a quote
character immediately preceding a word is dropped. -/
theorem claim_C8_counterexample :
    Prettify "TestFoo/says_\"hello\"" = "Foo says \"hello\"" ∧
    (Prettify "TestFoo/says_\"hello\"").data.contains '"' = true := by
  refine ⟨by decide, by decide⟩

/-- C8 amended: an opening quote character immediately preceding a word is
retained by `Prettify`, either attached to the word (see the counterexample)
or, when an uppercase letter follows it, as a separate one-rune word, as in
`Test"Quoted"`. -/
theorem claim_C8_amended :
    Prettify "Test\"Quoted\"" = "\" quoted\"" ∧
    (Prettify "Test\"Quoted\"").data.contains '"' = true := by
  refine ⟨by decide, by decide⟩

/-- C10: the boolean returned by `Filter` is `false` exactly when some input
line parses as an event whose `Action` is `fail`; relevance never matters for
the boolean (a `fail` event that `Relevant` would discard still forces
`false`), and unparseable lines and non-`fail` events leave it `true`. -/
theorem claim_C10_filter_fail :
    (∀ lines : List (Option Event),
      (FilterAllOK lines = false ↔ ∃ e : Event, some e ∈ lines ∧ e.Action = "fail")) ∧
    FilterAllOK [some ⟨"fail", "pkg", "x1", 0.0⟩] = false ∧
    Relevant ⟨"fail", "pkg", "x1", 0.0⟩ = false ∧
    FilterAllOK [none, some ⟨"pass", "pkg", "Testx", 0.0⟩] = true := by
  have key : ∀ (lines : List (Option Event)) (b : Bool),
      lines.foldl
        (fun allOK l =>
          match l with
          | none => allOK
          | some event => if event.Action = "fail" then false else allOK) b =
      (b && lines.all fun l =>
        match l with
        | none => true
        | some e => !(e.Action == "fail")) := by
    intro lines
    induction lines with
    | nil => intro b; simp
    | cons l rest ih =>
      intro b
      cases l with
      | none => rw [List.foldl_cons, ih]; simp
      | some e =>
        rw [List.foldl_cons, ih]
        by_cases hf : e.Action = "fail"
        · simp [hf]
        · have hb : (e.Action == "fail") = false := by
            refine Bool.eq_false_iff.mpr ?_
            intro hx
            exact hf (beq_iff_eq.mp hx)
          simp [hf, hb]
  refine ⟨?_, by decide, by decide, by decide⟩
  intro lines
  unfold FilterAllOK
  rw [key lines true, Bool.true_and]
  rw [List.all_eq_false]
  constructor
  · rintro ⟨l, hmem, hfail⟩
    cases l with
    | none => simp at hfail
    | some e =>
      refine ⟨e, hmem, ?_⟩
      by_cases hf : e.Action = "fail"
      · exact hf
      · exfalso
        refine hfail ?_
        show (!(e.Action == "fail")) = true
        rw [show (e.Action == "fail") = false from
          Bool.eq_false_iff.mpr (fun hx => hf (beq_iff_eq.mp hx))]
        decide
  · rintro ⟨e, hmem, hfail⟩
    refine ⟨some e, hmem, ?_⟩
    show ¬ (!(e.Action == "fail")) = true
    rw [show (e.Action == "fail") = true from beq_iff_eq.mpr hfail]
    decide

end Gotestdox

